import Mathlib

/-!
Shallow embedding of the ssith subset-sum MPC-in-the-Head prover/verifier.

Bytes are modelled as `Nat` values (the program stores them in `u8`, so the
values of interest are below 256); `u64` arithmetic wraps modulo `2 ^ 64`,
written with an explicit `% 2 ^ 64` (helper `w64`).  The external AES-128-CTR
keystream (from the `aes`/`ctr` crates) is abstracted as a function giving the
i-th keystream byte, and SHA3-256 (from the `sha3` crate) as a function from
the absorbed byte stream to a digest; every in-repository computation that
feeds those primitives is translated from the source.
-/

namespace Ssith

/-- A 16-byte AES block / key / opening, as a byte list. -/
abbrev Block := List Nat

-- Constants from consts.rs.
def KEY_SIZE : Nat := 16
def BLOCK_SIZE : Nat := 16
def OPENING_SIZE : Nat := 16
def DIGEST_SIZE : Nat := 32

-- ASCII bytes of the 8-byte domain-separation prefixes in consts.rs.
def PREFIX_H1_DELTA : List Nat := [100, 101, 108, 116, 97, 95, 114, 115]
def PREFIX_H1_COM : List Nat := [99, 111, 109, 109, 105, 116, 109, 101]
def PREFIX_H2 : List Nat := [104, 49, 115, 45, 45, 45, 45, 45]
def PREFIX_H3 : List Nat := [104, 51, 45, 45, 45, 45, 45, 45]
def PREFIX_H4 : List Nat := [104, 52, 45, 45, 45, 45, 45, 45]
def PREFIX_WITNESS : List Nat := [119, 105, 116, 110, 101, 115, 115, 45]
def PREFIX_INSTANCE : List Nat := [105, 110, 115, 116, 97, 110, 99, 101]

-- consts.rs line 14: `PREFIX_FS_H1 = *b"fs1-----"`.
def PREFIX_FS_H1 : List Nat := [102, 115, 49, 45, 45, 45, 45, 45]

-- consts.rs line 15: `PREFIX_FS_H2 = *b"fs1-----"` — the source gives the
-- second Fiat-Shamir hasher the same byte prefix as the first one.
def PREFIX_FS_H2 : List Nat := [102, 115, 49, 45, 45, 45, 45, 45]

/-- The `u64` modulus. -/
def U64_MOD : Nat := 2 ^ 64

/-- Reduction of a `u64` computation modulo `2 ^ 64` (wrap-around). -/
def w64 (x : Nat) : Nat := x % U64_MOD

/-- `u64::wrapping_sub` on values below `2 ^ 64`. -/
def wsub64 (a b : Nat) : Nat := (a % U64_MOD + (U64_MOD - b % U64_MOD)) % U64_MOD

/-- `usize::to_le_bytes` / `u64::to_le_bytes`: 8 little-endian bytes. -/
def le_bytes8 (x : Nat) : List Nat := (List.range 8).map (fun i => x / 256 ^ i % 256)

/-- `u64::from_le_bytes`: recombine (up to) 8 little-endian bytes. -/
def u64_from_le_bytes (bs : List Nat) : Nat := bs.foldr (fun b acc => b % 256 + 256 * acc) 0

/-- Modelled from the spec: the AES-128-CTR keystream of the external
`aes`/`ctr` crates, abstracted as the function giving, for a key (seed) and an
IV, the i-th keystream byte.  The in-repository PRG wrappers below consume
this stream exactly as `primitives.rs` consumes the cipher output. -/
abbrev AesStream := Block → Block → Nat → Nat

/-- `prg_aes_ctr` (primitives.rs): `block_count` keystream blocks of
`BLOCK_SIZE` bytes. -/
def prg_aes_ctr (aes : AesStream) (seed iv : Block) (block_count : Nat) : List Block :=
  (List.range block_count).map
    (fun i => (List.range BLOCK_SIZE).map (fun j => aes seed iv (i * BLOCK_SIZE + j) % 256))

/-- `prg_u64` (primitives.rs): `n` little-endian u64s packed two per 16-byte
block; the imperative fill `out[i * 2 + j] = u64(block_i[8 j .. 8 j + 8])`
is expressed as a map over the output indices `k = i * 2 + j`. -/
def prg_u64 (aes : AesStream) (seed iv : Block) (n : Nat) : List Nat :=
  let u64_per_block := BLOCK_SIZE / 8
  let block_count := (n + u64_per_block - 1) / u64_per_block
  let blocks := prg_aes_ctr aes seed iv block_count
  (List.range n).map
    (fun k => u64_from_le_bytes (((blocks.getD (k / u64_per_block) []).drop (k % u64_per_block * 8)).take 8))

/-- `prg_bin` (primitives.rs): `n` bits (one byte each), emitted LSB-first from
the concatenated keystream bytes; the source asserts `n ≥ 1` and computes
`n / BLOCK_SIZE + 1` blocks. -/
def prg_bin (aes : AesStream) (seed iv : Block) (n : Nat) : List Nat :=
  let block_count := n / BLOCK_SIZE + 1
  let bytes := (prg_aes_ctr aes seed iv block_count).flatten
  (List.range n).map (fun i => bytes.getD (i / 8) 0 / 2 ^ (i % 8) % 2)

/-- `prg_double` (primitives.rs): the two blocks of `prg_aes_ctr(seed, iv, 2)`. -/
def prg_double (aes : AesStream) (seed iv : Block) : Block × Block :=
  let out := prg_aes_ctr aes seed iv 2
  (out.getD 0 [], out.getD 1 [])

/-- The queue loop of `prg_tree` (primitives.rs): while the queue is shorter
than `n`, push the seed if the queue is empty, otherwise pop the head, expand
it with `prg_double` and push the two halves onto the tail. -/
def prg_tree_go (aes : AesStream) (seed iv : Block) (n : Nat) (out : List Block) : List Block :=
  match out with
  | [] => if h : ([] : List Block).length < n then prg_tree_go aes seed iv n [seed] else []
  | k :: rest =>
    if h : (k :: rest).length < n then
      prg_tree_go aes seed iv n (rest ++ [(prg_double aes k iv).1, (prg_double aes k iv).2])
    else k :: rest
termination_by n - out.length
decreasing_by
  · simp only [List.length_nil, List.length_cons] at h ⊢
    omega
  · simp only [List.length_cons, List.length_append] at h ⊢
    omega

/-- `prg_tree` (primitives.rs): GGM tree expansion, starting from the empty
queue. -/
def prg_tree (aes : AesStream) (seed iv : Block) (n : Nat) : List Block :=
  prg_tree_go aes seed iv n []

/-- Follows the wording of the spec (§4.2): breadth-first FIFO expansion starting
from the queue `[seed]`; while the queue is shorter than `n`, pop the head `k`
and push `prg_blocks(k, iv, 2)[0]` then `prg_blocks(k, iv, 2)[1]`. -/
def prg_tree_spec_loop (aes : AesStream) (iv : Block) (n : Nat) (q : List Block) : List Block :=
  if h : q.length < n then
    match q with
    | [] => []
    | k :: rest =>
      prg_tree_spec_loop aes iv n
        (rest ++ [(prg_aes_ctr aes k iv 2).getD 0 [], (prg_aes_ctr aes k iv 2).getD 1 []])
  else q
termination_by n - q.length
decreasing_by
  simp only [List.length_cons, List.length_append] at h ⊢
  omega

/-- Follows the wording of the spec (§4.2): run the expansion from `[seed]` and
return the first `n` items of the queue. -/
def prg_tree_spec (aes : AesStream) (seed iv : Block) (n : Nat) : List Block :=
  (prg_tree_spec_loop aes iv n [seed]).take n

/-- Modelled from the spec: SHA3-256 of the external `sha3` crate, abstracted
as a function from the absorbed byte stream (the concatenation of all
`hasher.update` calls) to the 32-byte digest. -/
abbrev Sha3 := List Nat → List Nat

/-- `commit` (primitives.rs): SHA3-256 of opening followed by value. -/
def commit (sha3 : Sha3) (value : List Nat) (opening : Block) : List Nat :=
  sha3 (opening ++ value)

/-- Byte stream absorbed by `hash1` (primitives.rs). -/
def hash1_input (delta_rs : List Nat) (coms : List (List Nat)) : List Nat :=
  PREFIX_H1_DELTA ++ le_bytes8 delta_rs.length ++ (delta_rs.map le_bytes8).flatten ++
    PREFIX_H1_COM ++ le_bytes8 coms.length ++ coms.flatten

/-- `hash1` (primitives.rs). -/
def hash1 (sha3 : Sha3) (delta_rs : List Nat) (coms : List (List Nat)) : List Nat :=
  sha3 (hash1_input delta_rs coms)

/-- `hash2` (primitives.rs). -/
def hash2 (sha3 : Sha3) (h1s : List (List Nat)) : List Nat :=
  sha3 (PREFIX_H2 ++ le_bytes8 h1s.length ++ h1s.flatten)

/-- `hash3` (primitives.rs): length-prefixed xor bits, then the t-shares
little-endian (their count is not absorbed). -/
def hash3 (sha3 : Sha3) (rs_tilde : List Nat) (t_shares : List Nat) : List Nat :=
  sha3 (PREFIX_H3 ++ le_bytes8 rs_tilde.length ++ rs_tilde ++ (t_shares.map le_bytes8).flatten)

/-- `hash4` (primitives.rs): the h3 digests, no length prefix. -/
def hash4 (sha3 : Sha3) (h_primes : List (List Nat)) : List Nat :=
  sha3 (PREFIX_H4 ++ h_primes.flatten)

/-- Byte stream absorbed by `fs_hash1` (primitives.rs). -/
def fs_hash1_input (h : List Nat) : List Nat := PREFIX_FS_H1 ++ h

/-- `fs_hash1` (primitives.rs). -/
def fs_hash1 (sha3 : Sha3) (h : List Nat) : List Nat := sha3 (fs_hash1_input h)

/-- Byte stream absorbed by `fs_hash2` (primitives.rs). -/
def fs_hash2_input (h_prime : List Nat) (mseeds : List Block) : List Nat :=
  PREFIX_FS_H2 ++ h_prime ++ le_bytes8 mseeds.length ++ mseeds.flatten

/-- `fs_hash2` (primitives.rs). -/
def fs_hash2 (sha3 : Sha3) (h_prime : List Nat) (mseeds : List Block) : List Nat :=
  sha3 (fs_hash2_input h_prime mseeds)

/-- `Param` (lib.rs), with the repetition parameter `rep_param` (τ) read by
`Prover::step2` (prover.rs) and `Verifier` (verifier.rs). -/
structure Param where
  ssp_dimension : Nat
  party_count : Nat
  cnc_param : Nat
  abort_param : Nat
  rep_param : Nat
  deriving DecidableEq

/-- `Witness` (lib.rs): a byte vector (field `w` models the `.0` tuple field). -/
structure Witness where
  w : List Nat
  deriving DecidableEq

/-- `Instance` (lib.rs). -/
structure Instance where
  weights : List Nat
  t : Nat
  deriving DecidableEq

/-- `InternalError` (errors.rs); the channel error variants carry external
channel types and are omitted. -/
inductive InternalError where
  | BadWitnessOrInstance
  | BadWitnessLength
  | BadInstanceLength
  | BadAbortParam
  | BadChallengeLength
  | ProtocolError
  deriving DecidableEq

deriving instance DecidableEq for Except

/-- The inner product recomputed by `sanity_check` (lib.rs): map
`(witness byte as u64) * weight` (u64 multiplication, wrapping), then fold
with `wrapping_add`. -/
def sanity_inner_product (w weights : List Nat) : Nat :=
  ((w.zip weights).map (fun q => w64 (q.1 * q.2))).foldl (fun acc s => w64 (acc + s)) 0

/-- `sanity_check` (lib.rs). -/
def sanity_check (witness : Witness) (inst : Instance) (param : Param) : Except InternalError Unit :=
  if witness.w.length ≠ param.ssp_dimension then .error .BadWitnessLength
  else if inst.weights.length ≠ param.ssp_dimension then .error .BadInstanceLength
  else if 64 ≤ param.abort_param then .error .BadAbortParam
  else if sanity_inner_product witness.w inst.weights ≠ inst.t then .error .BadWitnessOrInstance
  else .ok ()

/-- Byte stream absorbed by `hash_witness_instance` (lib.rs). -/
def hash_witness_instance_input (witness : Witness) (inst : Instance) : List Nat :=
  PREFIX_WITNESS ++ le_bytes8 witness.w.length ++ witness.w ++
    PREFIX_INSTANCE ++ le_bytes8 inst.weights.length ++ (inst.weights.map le_bytes8).flatten ++
    le_bytes8 inst.t

/-- `hash_witness_instance` (lib.rs): first `BLOCK_SIZE` bytes of the digest. -/
def hash_witness_instance (sha3 : Sha3) (witness : Witness) (inst : Instance) : Block :=
  (sha3 (hash_witness_instance_input witness inst)).take BLOCK_SIZE

/-- `Prover` (lib.rs / prover.rs); `inst` models the `instance` field, whose
name is reserved in Lean. -/
structure Prover where
  witness : Witness
  inst : Instance
  mseed : Block
  iv : Block
  param : Param
  deriving DecidableEq

/-- `Prover::from_witness_instance_unchecked` (lib.rs). -/
def from_witness_instance_unchecked (sha3 : Sha3) (witness : Witness) (inst : Instance)
    (mseed : Block) (param : Param) : Prover :=
  { witness := witness, inst := inst, mseed := mseed,
    iv := hash_witness_instance sha3 witness inst, param := param }

/-- `Prover::from_witness_instance` (lib.rs): sanity check, then the unchecked
constructor. -/
def from_witness_instance (sha3 : Sha3) (witness : Witness) (inst : Instance)
    (mseed : Block) (param : Param) : Except InternalError Prover :=
  match sanity_check witness inst param with
  | .error e => .error e
  | .ok _ => .ok (from_witness_instance_unchecked sha3 witness inst mseed param)

/-- `ProverStateInner` (prover.rs); openings and commitments are stored as the
underlying byte arrays (the `Opening`/`Commitment`/`WrapperArray` wrappers are
serde artifacts). -/
structure ProverStateInner where
  mseed_inner : Block
  rs : List Nat
  seeds : List Block
  rhos : List Block
  r_shares : List (List Nat)
  coms : List (List Nat)
  r_shares_sum : List Nat
  delta_rs : List Nat
  h1 : List Nat
  deriving DecidableEq, Inhabited

/-- `ProverState` (prover.rs). -/
structure ProverState where
  step1_state : List ProverStateInner
  h : List Nat
  deriving DecidableEq, Inhabited

/-- `chunks_exact(2)` followed by pairing (prover.rs step1): consecutive
disjoint pairs, dropping a trailing odd element. -/
def chunks_exact2 {α : Type} : List α → List (α × α)
  | a :: b :: rest => (a, b) :: chunks_exact2 rest
  | _ => []

/-- The body of the per-repetition loop of `Prover::step1` (prover.rs).
`1 << abort_param` is written `2 ^ abort_param` (the shift is within range
whenever `abort_param < 64`, which the checked constructor enforces); u64
additions wrap modulo `2 ^ 64`. -/
def step1_inner (aes : AesStream) (sha3 : Sha3) (p : Prover) (mseed_inner : Block) :
    ProverStateInner :=
  let rs := prg_bin aes mseed_inner p.iv p.param.ssp_dimension
  let seeds_rhos := prg_tree aes mseed_inner p.iv (p.param.party_count * 2)
  let pairs := chunks_exact2 seeds_rhos
  let seeds := pairs.map Prod.fst
  let rhos := pairs.map Prod.snd
  let r_shares := seeds.map (fun seed =>
    (prg_u64 aes seed p.iv p.param.ssp_dimension).map (fun x => x % 2 ^ p.param.abort_param))
  let coms := (seeds.zip rhos).map (fun q => commit sha3 q.1 q.2)
  let r_shares_sum := r_shares.foldl
    (fun acc x => (acc.zip x).map (fun q => w64 (q.1 + q.2)))
    (List.replicate p.param.ssp_dimension 0)
  let delta_rs := (rs.zip r_shares_sum).map (fun q => wsub64 q.1 q.2)
  { mseed_inner := mseed_inner, rs := rs, seeds := seeds, rhos := rhos,
    r_shares := r_shares, coms := coms, r_shares_sum := r_shares_sum,
    delta_rs := delta_rs, h1 := hash1 sha3 delta_rs coms }

/-- `Prover::step1` (prover.rs): expand the master seed into `cnc_param` inner
seeds, run the per-repetition body on each, and hash the h1 digests. -/
def step1 (aes : AesStream) (sha3 : Sha3) (p : Prover) : ProverState :=
  let inners := (prg_tree aes p.mseed p.iv p.param.cnc_param).map (step1_inner aes sha3 p)
  { step1_state := inners, h := hash2 sha3 (inners.map ProverStateInner.h1) }

/-- `xs_tilde` in `Prover::step2` (prover.rs): witness bytes xored with the
masking bits. -/
def xs_tilde_of (witness rs : List Nat) : List Nat :=
  (witness.zip rs).map (fun q => q.1 ^^^ q.2)

/-- `x_share` in `Prover::step2` (prover.rs):
`(1 - xs_tilde) * r_share + xs_tilde * (1 wrapping_sub r_share)`, with
`xs_tilde ∈ {0, 1}` so the u8 subtraction `1 - xs_tilde` never underflows. -/
def x_share (xs_tilde r_share : List Nat) : List Nat :=
  (xs_tilde.zip r_share).map (fun q => w64 ((1 - q.1) * q.2 + q.1 * wsub64 1 q.2))

/-- `t_share` in `Prover::step2` (prover.rs): the wrapping sum over k of
`weights[k] * x_share[k]`. -/
def t_share (weights xs_tilde r_share : List Nat) : Nat :=
  ((weights.zip (x_share xs_tilde r_share)).map (fun q => w64 (q.1 * q.2))).foldl
    (fun acc s => w64 (acc + s)) 0

/-- The possible outcomes of `Prover::step2` (prover.rs): a value, an
`InternalError`, or an out-of-bounds indexing abort (`state.step1_state[*e]`
with `e` outside the state — the source has no range check on the
challenge). -/
inductive Step2Result where
  | ok : List Nat → List Block → Step2Result
  | err : InternalError → Step2Result
  | oob : Step2Result
  deriving DecidableEq

/-- `Prover::step2` (prover.rs): check `|J| = rep_param`, then for each `e` in
`chalJ` compute the h3 digest and collect `state.step1_state[e].mseed_inner`
(the source collects the seeds with `e ∈ J`; its comment says this is wrong
and the complement should be revealed). An `e` outside the state aborts with
an out-of-bounds panic, modelled as `.oob`. -/
def step2 (sha3 : Sha3) (p : Prover) (state : ProverState) (chalJ : List Nat) : Step2Result :=
  if chalJ.length ≠ p.param.rep_param then .err .BadChallengeLength
  else if chalJ.any (fun e => state.step1_state.length ≤ e) then .oob
  else
    let h_primes := chalJ.map (fun e =>
      let inner := state.step1_state.getD e default
      let xs := xs_tilde_of p.witness.w inner.rs
      hash3 sha3 xs (inner.r_shares.map (t_share p.inst.weights xs)))
    let mseeds := chalJ.map (fun e => (state.step1_state.getD e default).mseed_inner)
    .ok (hash4 sha3 h_primes) mseeds

/-- The revealed master seeds of a step-2 result. -/
def step2_mseeds : Step2Result → Option (List Block)
  | .ok _ ms => some ms
  | _ => none

/-- Rust slice `swap` on a byte/index list (in-bounds at every use below). -/
def list_swap (l : List Nat) (i j : Nat) : List Nat :=
  (l.set i (l.getD j 0)).set j (l.getD i 0)

/-- Fisher-Yates pass: swap position `i` with a drawn position `≤ i`, for `i`
from `len - 1` down to `1`; `r i` is the i-th random draw. -/
def fisher_yates_go (r : Nat → Nat) : Nat → List Nat → List Nat
  | 0, l => l
  | i + 1, l => fisher_yates_go r i (list_swap l (i + 1) (r (i + 1) % (i + 2)))

/-- Modelled from the spec: `SliceRandom::shuffle` of the external `rand`
crate, specified in §4.6 as a Fisher-Yates shuffle driven by the RNG `r`. -/
def shuffle (r : Nat → Nat) (l : List Nat) : List Nat :=
  fisher_yates_go r (l.length - 1) l

/-- `Verifier::step1` (verifier.rs): shuffle `[0, M)` and take the first τ. -/
def verifier_step1 (r : Nat → Nat) (param : Param) : List Nat :=
  (shuffle r (List.range param.cnc_param)).take param.rep_param

/-- `Verifier::step2` (verifier.rs): τ draws, each reduced modulo N; `r k` is
the k-th `rng.gen::<usize>()` draw. -/
def verifier_step2 (r : Nat → Nat) (param : Param) : List Nat :=
  (List.range param.rep_param).map (fun k => r k % param.party_count)

/-- A concrete all-zero keystream, used to instantiate the abstract AES
parameter in concrete evaluations. -/
def aes_zero : AesStream := fun _ _ _ => 0

/-- A concrete constant digest function, used to instantiate the abstract
SHA3 parameter in concrete evaluations. -/
def sha3_zero : Sha3 := fun _ => List.replicate 32 0

theorem prg_u64_length (aes : AesStream) (seed iv : Block) (n : Nat) :
    (prg_u64 aes seed iv n).length = n := by
  simp [prg_u64]

theorem prg_bin_length (aes : AesStream) (seed iv : Block) (n : Nat) :
    (prg_bin aes seed iv n).length = n := by
  simp [prg_bin]

theorem getD_replicate_zero (n j : Nat) : (List.replicate n (0 : Nat)).getD j 0 = 0 := by
  rcases Nat.lt_or_ge j n with h | h
  · rw [List.getD_eq_getElem _ _ (by simpa using h)]
    simp
  · rw [List.getD_eq_default _ _ (by simpa using h)]

theorem getD_zip_map_w64add :
    ∀ (a b : List Nat) (k : Nat), b.length = a.length →
      ((a.zip b).map (fun q => w64 (q.1 + q.2))).getD k 0
        = if k < a.length then w64 (a.getD k 0 + b.getD k 0) else 0 := by
  intro a
  induction a with
  | nil => intro b k h; simp
  | cons x t ih =>
    intro b k h
    rcases b with _ | ⟨y, s⟩
    · simp at h
    · rcases k with _ | k
      · simp
      · simp only [List.zip_cons_cons, List.map_cons, List.getD_cons_succ, List.length_cons]
        rw [ih s k (by simpa using h)]
        simp [Nat.succ_lt_succ_iff]

theorem getD_zip_map_wsub64 :
    ∀ (a b : List Nat) (k : Nat), b.length = a.length →
      ((a.zip b).map (fun q => wsub64 q.1 q.2)).getD k 0
        = if k < a.length then wsub64 (a.getD k 0) (b.getD k 0) else 0 := by
  intro a
  induction a with
  | nil => intro b k h; simp
  | cons x t ih =>
    intro b k h
    rcases b with _ | ⟨y, s⟩
    · simp at h
    · rcases k with _ | k
      · simp
      · simp only [List.zip_cons_cons, List.map_cons, List.getD_cons_succ, List.length_cons]
        rw [ih s k (by simpa using h)]
        simp [Nat.succ_lt_succ_iff]

theorem r_sum_fold_getD (k : Nat) :
    ∀ (rows : List (List Nat)) (acc : List Nat),
      (∀ row ∈ rows, row.length = acc.length) →
      (∀ j, acc.getD j 0 < U64_MOD) →
      (rows.foldl (fun acc x => (acc.zip x).map (fun q => w64 (q.1 + q.2))) acc).getD k 0
        = (acc.getD k 0 + (rows.map (fun r => r.getD k 0)).sum) % U64_MOD := by
  intro rows
  induction rows with
  | nil =>
    intro acc _ hacc
    simp only [List.foldl_nil, List.map_nil, List.sum_nil, Nat.add_zero]
    exact (Nat.mod_eq_of_lt (hacc k)).symm
  | cons x rows ih =>
    intro acc hrows hacc
    have hx : x.length = acc.length := hrows x (by simp)
    have hlen : ((acc.zip x).map (fun q => w64 (q.1 + q.2))).length = acc.length := by
      simp [List.length_zip, hx]
    simp only [List.foldl_cons]
    rw [ih _ ?hr ?ha]
    case hr =>
      intro row hrow
      rw [hlen]
      exact hrows row (by simp [hrow])
    case ha =>
      intro j
      rw [getD_zip_map_w64add _ _ _ hx]
      split
      · exact Nat.mod_lt _ (by simp [U64_MOD])
      · simp [U64_MOD]
    rw [getD_zip_map_w64add _ _ _ hx]
    rcases Nat.lt_or_ge k acc.length with hk | hk
    · rw [if_pos hk]
      simp only [List.map_cons, List.sum_cons, w64]
      rw [Nat.mod_add_mod]
      congr 1
      ring
    · rw [if_neg (by omega)]
      have ha0 : acc.getD k 0 = 0 := List.getD_eq_default _ _ (by simpa using hk)
      have hx0 : x.getD k 0 = 0 := List.getD_eq_default _ _ (by simp [hx]; omega)
      simp only [List.map_cons, List.sum_cons, ha0, hx0, Nat.zero_add]

theorem fold_zipadd_length :
    ∀ (rows : List (List Nat)) (acc : List Nat),
      (∀ row ∈ rows, row.length = acc.length) →
      (rows.foldl (fun acc x => (acc.zip x).map (fun q => w64 (q.1 + q.2))) acc).length
        = acc.length := by
  intro rows
  induction rows with
  | nil => intro acc _; rfl
  | cons x rows ih =>
    intro acc hrows
    have hx : x.length = acc.length := hrows x (by simp)
    have hlen : ((acc.zip x).map (fun q => w64 (q.1 + q.2))).length = acc.length := by
      simp [List.length_zip, hx]
    simp only [List.foldl_cons]
    rw [ih _ (by intro row hrow; rw [hlen]; exact hrows row (by simp [hrow])), hlen]

theorem wsub64_add_cancel (a b : Nat) : (wsub64 a b + b) % U64_MOD = a % U64_MOD := by
  unfold wsub64 U64_MOD
  omega

theorem foldl_w64_aux {α : Type} (g : α → Nat) :
    ∀ (l : List α) (a : Nat),
      (l.map (fun q => w64 (g q))).foldl (fun acc s => w64 (acc + s)) (w64 a)
        = (a + (l.map g).sum) % U64_MOD := by
  intro l
  induction l with
  | nil => intro a; simp [w64]
  | cons x t ih =>
    intro a
    simp only [List.map_cons, List.foldl_cons]
    have h1 : w64 (w64 a + w64 (g x)) = w64 (a + g x) := by
      simp [w64, Nat.add_mod]
    rw [h1, ih (a + g x)]
    simp [List.sum_cons, Nat.add_assoc]

theorem sanity_inner_product_eq (w weights : List Nat) :
    sanity_inner_product w weights
      = ((w.zip weights).map (fun q => q.1 * q.2)).sum % 2 ^ 64 := by
  have h := foldl_w64_aux (fun q : Nat × Nat => q.1 * q.2) (w.zip weights) 0
  simp only [w64, U64_MOD, Nat.zero_mod, Nat.zero_add] at h
  simpa [sanity_inner_product, w64, U64_MOD] using h

/-- C6: sanity_check returns Ok exactly when the witness length is n, the
weights length is n, log A is below 64 and the wrapping inner product of
witness and weights equals t; each violation, in check order, yields the
corresponding error kind, with log A = 64 covered by BadAbortParam. -/
theorem sanity_check_spec (w : Witness) (i : Instance) (p : Param) :
    (sanity_check w i p = .ok () ↔
      w.w.length = p.ssp_dimension ∧ i.weights.length = p.ssp_dimension ∧
        p.abort_param < 64 ∧
        ((w.w.zip i.weights).map (fun q => q.1 * q.2)).sum % 2 ^ 64 = i.t) ∧
    (w.w.length ≠ p.ssp_dimension → sanity_check w i p = .error .BadWitnessLength) ∧
    (w.w.length = p.ssp_dimension → i.weights.length ≠ p.ssp_dimension →
      sanity_check w i p = .error .BadInstanceLength) ∧
    (w.w.length = p.ssp_dimension → i.weights.length = p.ssp_dimension →
      64 ≤ p.abort_param → sanity_check w i p = .error .BadAbortParam) ∧
    (w.w.length = p.ssp_dimension → i.weights.length = p.ssp_dimension →
      p.abort_param < 64 →
      ((w.w.zip i.weights).map (fun q => q.1 * q.2)).sum % 2 ^ 64 ≠ i.t →
      sanity_check w i p = .error .BadWitnessOrInstance) := by
  unfold sanity_check
  rw [sanity_inner_product_eq]
  split_ifs with h1 h2 h3 h4 <;> simp_all

/-- Witness for C6 at concrete inputs: one accepted instance and one concrete
input for each of the four error kinds. -/
theorem sanity_check_spec_witness :
    sanity_check ⟨[1]⟩ ⟨[5], 5⟩ ⟨1, 1, 1, 0, 1⟩ = .ok () ∧
    sanity_check ⟨[1, 1]⟩ ⟨[5], 5⟩ ⟨1, 1, 1, 0, 1⟩ = .error .BadWitnessLength ∧
    sanity_check ⟨[1]⟩ ⟨[5, 5], 5⟩ ⟨1, 1, 1, 0, 1⟩ = .error .BadInstanceLength ∧
    sanity_check ⟨[1]⟩ ⟨[5], 5⟩ ⟨1, 1, 1, 64, 1⟩ = .error .BadAbortParam ∧
    sanity_check ⟨[1]⟩ ⟨[5], 7⟩ ⟨1, 1, 1, 0, 1⟩ = .error .BadWitnessOrInstance :=
  ⟨(sanity_check_spec ⟨[1]⟩ ⟨[5], 5⟩ ⟨1, 1, 1, 0, 1⟩).1.mpr (by decide),
   (sanity_check_spec ⟨[1, 1]⟩ ⟨[5], 5⟩ ⟨1, 1, 1, 0, 1⟩).2.1 (by decide),
   (sanity_check_spec ⟨[1]⟩ ⟨[5, 5], 5⟩ ⟨1, 1, 1, 0, 1⟩).2.2.1 (by decide) (by decide),
   (sanity_check_spec ⟨[1]⟩ ⟨[5], 5⟩ ⟨1, 1, 1, 64, 1⟩).2.2.2.1 (by decide) (by decide)
     (by decide),
   (sanity_check_spec ⟨[1]⟩ ⟨[5], 7⟩ ⟨1, 1, 1, 0, 1⟩).2.2.2.2 (by decide) (by decide)
     (by decide) (by decide)⟩

theorem default_inner_eq : (default : ProverStateInner) = ⟨[], [], [], [], [], [], [], [], []⟩ :=
  rfl

theorem step1_state_getD_cases (aes : AesStream) (sha3 : Sha3) (p : Prover) (e : Nat) :
    (step1 aes sha3 p).step1_state.getD e default = default ∨
    ∃ ms, (step1 aes sha3 p).step1_state.getD e default = step1_inner aes sha3 p ms := by
  rcases hl : (prg_tree aes p.mseed p.iv p.param.cnc_param)[e]? with _ | ms
  · left
    show ((prg_tree aes p.mseed p.iv p.param.cnc_param).map (step1_inner aes sha3 p)).getD e default
      = default
    simp [List.getD_eq_getElem?_getD, List.getElem?_map, hl]
  · right
    refine ⟨ms, ?_⟩
    show ((prg_tree aes p.mseed p.iv p.param.cnc_param).map (step1_inner aes sha3 p)).getD e default
      = step1_inner aes sha3 p ms
    simp [List.getD_eq_getElem?_getD, List.getElem?_map, hl]

theorem step1_inner_r_shares_length (aes : AesStream) (sha3 : Sha3) (p : Prover) (ms : Block) :
    ∀ row ∈ (step1_inner aes sha3 p ms).r_shares, row.length = p.param.ssp_dimension := by
  intro row hrow
  simp only [step1_inner, List.mem_map] at hrow
  obtain ⟨seed, _, rfl⟩ := hrow
  simp [prg_u64_length]

theorem step1_inner_r_shares_sum_getD (aes : AesStream) (sha3 : Sha3) (p : Prover) (ms : Block)
    (k : Nat) :
    (step1_inner aes sha3 p ms).r_shares_sum.getD k 0
      = (((step1_inner aes sha3 p ms).r_shares.map (fun r => r.getD k 0)).sum) % U64_MOD := by
  have hrows := step1_inner_r_shares_length aes sha3 p ms
  simp only [step1_inner] at hrows ⊢
  rw [r_sum_fold_getD]
  · rw [getD_replicate_zero]
    simp
  · intro row hrow
    simp only [List.length_replicate]
    exact hrows row hrow
  · intro j
    rw [getD_replicate_zero]
    simp [U64_MOD]

theorem step1_inner_r_shares_sum_length (aes : AesStream) (sha3 : Sha3) (p : Prover)
    (ms : Block) :
    (step1_inner aes sha3 p ms).r_shares_sum.length = p.param.ssp_dimension := by
  have hrows := step1_inner_r_shares_length aes sha3 p ms
  simp only [step1_inner] at hrows ⊢
  rw [fold_zipadd_length]
  · simp
  · intro row hrow
    simp only [List.length_replicate]
    exact hrows row hrow

theorem delta_sum_consistency (rs sum : List Nat) (k : Nat) (h : sum.length = rs.length) :
    (((rs.zip sum).map (fun q => wsub64 q.1 q.2)).getD k 0 + sum.getD k 0) % U64_MOD
      = rs.getD k 0 % U64_MOD := by
  rw [getD_zip_map_wsub64 _ _ _ h]
  rcases Nat.lt_or_ge k rs.length with hk | hk
  · rw [if_pos hk]
    exact wsub64_add_cancel _ _
  · rw [if_neg (by omega)]
    rw [List.getD_eq_default _ _ (by omega), List.getD_eq_default _ _ (by simpa using hk)]

theorem step1_inner_delta_consistency (aes : AesStream) (sha3 : Sha3) (p : Prover) (ms : Block)
    (k : Nat) :
    ((step1_inner aes sha3 p ms).delta_rs.getD k 0
        + (step1_inner aes sha3 p ms).r_shares_sum.getD k 0) % U64_MOD
      = (step1_inner aes sha3 p ms).rs.getD k 0 % U64_MOD := by
  have hsum := step1_inner_r_shares_sum_length aes sha3 p ms
  simp only [step1_inner] at hsum ⊢
  exact delta_sum_consistency _ _ k (by rw [hsum, prg_bin_length])

theorem t_share_eq_sip (weights xs r_share : List Nat) :
    t_share weights xs r_share = sanity_inner_product weights (x_share xs r_share) := rfl

/-- C4: in the mod-2-to-the-64 (wrap-around) model of u64 arithmetic, every
coordinate of r_shares_sum in every repetition record of step1 equals the sum
of the party shares at that coordinate reduced modulo 2 to the 64, and every
per-party t_share in step2 equals the sum over k of weights times x_share
reduced modulo 2 to the 64; both computations are total. -/
theorem step1_step2_wrapping_sums (aes : AesStream) (sha3 : Sha3) (p : Prover) (e k : Nat)
    (weights xs r_share : List Nat) :
    ((step1 aes sha3 p).step1_state.getD e default).r_shares_sum.getD k 0
      = ((((step1 aes sha3 p).step1_state.getD e default).r_shares.map
            (fun r => r.getD k 0)).sum) % 2 ^ 64
    ∧ t_share weights xs r_share
      = (((weights.zip (x_share xs r_share)).map (fun q => q.1 * q.2)).sum) % 2 ^ 64 := by
  constructor
  · rcases step1_state_getD_cases aes sha3 p e with h | ⟨ms, h⟩ <;> rw [h]
    · rw [default_inner_eq]
      simp
    · exact step1_inner_r_shares_sum_getD aes sha3 p ms k
  · rw [t_share_eq_sip]
    exact sanity_inner_product_eq _ _

/-- C8: in every repetition record produced by step1 and at every coordinate,
delta_rs plus r_shares_sum is congruent to the masking bit rs modulo 2 to
the 64. -/
theorem step1_share_sum_consistency (aes : AesStream) (sha3 : Sha3) (p : Prover) (e k : Nat) :
    (((step1 aes sha3 p).step1_state.getD e default).delta_rs.getD k 0
        + ((step1 aes sha3 p).step1_state.getD e default).r_shares_sum.getD k 0) % 2 ^ 64
      = ((step1 aes sha3 p).step1_state.getD e default).rs.getD k 0 % 2 ^ 64 := by
  rcases step1_state_getD_cases aes sha3 p e with h | ⟨ms, h⟩ <;> rw [h]
  · rw [default_inner_eq]
    simp
  · exact step1_inner_delta_consistency aes sha3 p ms k

theorem prg_tree_go_eq_spec_loop (aes : AesStream) (seed iv : Block) (n : Nat) :
    ∀ (fuel : Nat) (q : List Block), q ≠ [] → n - q.length ≤ fuel →
      prg_tree_go aes seed iv n q = prg_tree_spec_loop aes iv n q := by
  intro fuel
  induction fuel with
  | zero =>
    intro q hq hle
    rcases q with _ | ⟨k, rest⟩
    · exact absurd rfl hq
    simp only [List.length_cons] at hle
    have hn : ¬ rest.length + 1 < n := by omega
    rw [prg_tree_go.eq_def, prg_tree_spec_loop.eq_def]
    simp only [List.length_cons]
    rw [dif_neg hn, dif_neg hn]
  | succ f ih =>
    intro q hq hle
    rcases q with _ | ⟨k, rest⟩
    · exact absurd rfl hq
    simp only [List.length_cons] at hle
    rw [prg_tree_go.eq_def, prg_tree_spec_loop.eq_def]
    simp only [List.length_cons]
    by_cases hn : rest.length + 1 < n
    · rw [dif_pos hn, dif_pos hn]
      rw [ih _ (by simp) (by simp [List.length_append]; omega)]
      rfl
    · rw [dif_neg hn, dif_neg hn]

theorem prg_tree_spec_loop_length (aes : AesStream) (iv : Block) (n : Nat) :
    ∀ (fuel : Nat) (q : List Block), q ≠ [] → n - q.length ≤ fuel →
      (prg_tree_spec_loop aes iv n q).length = max q.length n := by
  intro fuel
  induction fuel with
  | zero =>
    intro q hq hle
    rcases q with _ | ⟨k, rest⟩
    · exact absurd rfl hq
    simp only [List.length_cons] at hle
    have hn : ¬ rest.length + 1 < n := by omega
    rw [prg_tree_spec_loop.eq_def]
    simp only [List.length_cons]
    rw [dif_neg hn]
    simp only [List.length_cons]
    omega
  | succ f ih =>
    intro q hq hle
    rcases q with _ | ⟨k, rest⟩
    · exact absurd rfl hq
    simp only [List.length_cons] at hle
    rw [prg_tree_spec_loop.eq_def]
    simp only [List.length_cons]
    by_cases hn : rest.length + 1 < n
    · rw [dif_pos hn]
      rw [ih _ (by simp) (by simp [List.length_append]; omega)]
      simp [List.length_append]
      omega
    · rw [dif_neg hn]
      simp only [List.length_cons]
      omega

theorem prg_tree_eq_spec (aes : AesStream) (seed iv : Block) (n : Nat) :
    prg_tree aes seed iv n = prg_tree_spec aes seed iv n := by
  rcases Nat.eq_zero_or_pos n with h0 | hpos
  · subst h0
    simp [prg_tree, prg_tree_go, prg_tree_spec]
  · rw [prg_tree, prg_tree_go.eq_def]
    have h1 : ([] : List Block).length < n := by simpa using hpos
    simp only [h1, dif_pos]
    rw [prg_tree_go_eq_spec_loop aes seed iv n n [seed] (by simp) (by simp)]
    rw [prg_tree_spec]
    have hlen := prg_tree_spec_loop_length aes iv n n [seed] (by simp) (by simp)
    rw [List.take_of_length_le (by rw [hlen]; simp; omega)]

/-- C7: prg_tree equals the breadth-first FIFO expansion described by the
spec (queue starts at the seed, each step pops the head and pushes the two
halves of its double-PRG expansion, and the first n queue items are
returned); in particular the expansion of length 1 is the seed itself and
the expansion of length 2 consists of the two keystream blocks in order. -/
theorem prg_tree_bfs_spec (aes : AesStream) (seed iv : Block) (n : Nat) :
    prg_tree aes seed iv n = prg_tree_spec aes seed iv n ∧
    prg_tree aes seed iv 1 = [seed] ∧
    prg_tree aes seed iv 2
      = [(prg_aes_ctr aes seed iv 2).getD 0 [], (prg_aes_ctr aes seed iv 2).getD 1 []] := by
  refine ⟨prg_tree_eq_spec aes seed iv n, ?_, ?_⟩
  · rw [prg_tree, prg_tree_go.eq_def]
    simp
    rw [prg_tree_go.eq_def]
    simp
  · rw [prg_tree, prg_tree_go.eq_def]
    simp
    rw [prg_tree_go.eq_def]
    simp
    rw [prg_tree_go.eq_def]
    simp [prg_double]

/-- C10: with a requested length of zero the queue loop of prg_tree never
runs, so the output is empty and in particular the initial seed is not
emitted. -/
theorem prg_tree_zero_empty (aes : AesStream) (seed iv : Block) :
    prg_tree aes seed iv 0 = [] := by
  simp [prg_tree, prg_tree_go]

theorem cons_set_perm {α : Type} :
    ∀ (t : List α) (m : Nat) (hm : m < t.length) (a : α),
      List.Perm (t.get ⟨m, hm⟩ :: t.set m a) (a :: t) := by
  intro t
  induction t with
  | nil => intro m hm a; simp at hm
  | cons b s ih =>
    intro m hm a
    rcases m with _ | m
    · exact List.Perm.swap a b s
    · have hms : m < s.length := by simpa using hm
      exact (List.Perm.swap b (s.get ⟨m, hms⟩) (s.set m a)).trans
        (((ih m hms a).cons b).trans (List.Perm.swap a b s))

theorem set_set_perm {α : Type} :
    ∀ (l : List α) (i j : Nat) (hi : i < l.length) (hj : j < l.length),
      List.Perm ((l.set i (l.get ⟨j, hj⟩)).set j (l.get ⟨i, hi⟩)) l := by
  intro l
  induction l with
  | nil => intro i j hi hj; simp at hi
  | cons x t ih =>
    intro i j hi hj
    rcases i with _ | i
    · rcases j with _ | j
      · simp
      · have hjt : j < t.length := by simpa using hj
        simpa using cons_set_perm t j hjt x
    · rcases j with _ | j
      · have hit : i < t.length := by simpa using hi
        simpa using cons_set_perm t i hit x
      · have hit : i < t.length := by simpa using hi
        have hjt : j < t.length := by simpa using hj
        simpa using (ih i j hit hjt).cons x

theorem list_swap_perm (l : List Nat) (i j : Nat) (hi : i < l.length) (hj : j < l.length) :
    List.Perm (list_swap l i j) l := by
  unfold list_swap
  rw [List.getD_eq_getElem _ _ hi, List.getD_eq_getElem _ _ hj]
  exact set_set_perm l i j hi hj

theorem list_swap_length (l : List Nat) (i j : Nat) : (list_swap l i j).length = l.length := by
  simp [list_swap]

theorem fisher_yates_go_perm (r : Nat → Nat) :
    ∀ (i : Nat) (l : List Nat), i < l.length → List.Perm (fisher_yates_go r i l) l := by
  intro i
  induction i with
  | zero => intro l _; exact List.Perm.refl l
  | succ i ih =>
    intro l h
    rw [fisher_yates_go]
    have hmod : r (i + 1) % (i + 2) < i + 2 := Nat.mod_lt _ (by omega)
    have hlen : (list_swap l (i + 1) (r (i + 1) % (i + 2))).length = l.length :=
      list_swap_length l _ _
    exact (ih _ (by omega)).trans (list_swap_perm l (i + 1) _ h (by omega))

theorem shuffle_perm (r : Nat → Nat) (l : List Nat) : List.Perm (shuffle r l) l := by
  unfold shuffle
  rcases l with _ | ⟨x, t⟩
  · exact List.Perm.refl _
  · exact fisher_yates_go_perm r t.length (x :: t) (by simp)

/-- C9: for parameters with rep_param at most cnc_param and positive
party_count, and any RNG streams, step1 of the verifier returns exactly
rep_param pairwise-distinct indices below cnc_param, and step2 returns
exactly rep_param indices below party_count. -/
theorem verifier_challenge_sampling (r1 r2 : Nat → Nat) (p : Param)
    (htau : p.rep_param ≤ p.cnc_param) (hN : 0 < p.party_count) :
    (verifier_step1 r1 p).length = p.rep_param ∧
    (verifier_step1 r1 p).Nodup ∧
    (∀ x ∈ verifier_step1 r1 p, x < p.cnc_param) ∧
    (verifier_step2 r2 p).length = p.rep_param ∧
    (∀ x ∈ verifier_step2 r2 p, x < p.party_count) := by
  have hperm := shuffle_perm r1 (List.range p.cnc_param)
  have hlenshuf : (shuffle r1 (List.range p.cnc_param)).length = p.cnc_param := by
    rw [hperm.length_eq, List.length_range]
  refine ⟨?_, ?_, ?_, ?_, ?_⟩
  · simp only [verifier_step1, List.length_take, hlenshuf]
    omega
  · exact ((hperm.nodup_iff).mpr (List.nodup_range _)).sublist (List.take_sublist _ _)
  · intro x hx
    have hx2 : x ∈ shuffle r1 (List.range p.cnc_param) := List.mem_of_mem_take hx
    have := hperm.mem_iff.mp hx2
    simpa using this
  · simp [verifier_step2]
  · intro x hx
    simp only [verifier_step2, List.mem_map, List.mem_range] at hx
    obtain ⟨k, _, hxk⟩ := hx
    exact hxk ▸ Nat.mod_lt _ hN

/-- Witness for C9 at a concrete parameter record and concrete RNG streams. -/
theorem verifier_challenge_sampling_witness :
    (2 : Nat) ≤ 3 ∧ (0 : Nat) < 2 ∧
    ((verifier_step1 (fun k => 3 * k + 1) ⟨4, 2, 3, 14, 2⟩).length = 2 ∧
      (verifier_step1 (fun k => 3 * k + 1) ⟨4, 2, 3, 14, 2⟩).Nodup ∧
      (∀ x ∈ verifier_step1 (fun k => 3 * k + 1) ⟨4, 2, 3, 14, 2⟩, x < 3) ∧
      (verifier_step2 (fun k => 5 * k + 1) ⟨4, 2, 3, 14, 2⟩).length = 2 ∧
      (∀ x ∈ verifier_step2 (fun k => 5 * k + 1) ⟨4, 2, 3, 14, 2⟩, x < 2)) :=
  ⟨by decide, by decide,
    verifier_challenge_sampling (fun k => 3 * k + 1) (fun k => 5 * k + 1) ⟨4, 2, 3, 14, 2⟩
      (by decide) (by decide)⟩

/-- C1: evaluation of step2 at a challenged state shows the source reveals
the inner master seed of the index inside J, not the complement: with two
repetitions carrying distinct inner seeds and the challenge equal to the
singleton zero, the revealed list is the seed of repetition zero, while the
complement semantics required by the spec would reveal the seed of
repetition one. -/
theorem step2_mseed_selection_bug :
    step2_mseeds
        (step2 sha3_zero
          { witness := ⟨[]⟩, inst := ⟨[], 0⟩, mseed := [], iv := [],
            param := ⟨0, 0, 2, 0, 1⟩ }
          { step1_state :=
              [{ (default : ProverStateInner) with mseed_inner := List.replicate 16 1 },
               { (default : ProverStateInner) with mseed_inner := List.replicate 16 2 }],
            h := [] }
          [0])
      = some [List.replicate 16 1] ∧
    (List.replicate 16 1 : Block) ≠ List.replicate 16 2 := by
  constructor
  · decide
  · decide

/-- C2: a challenge of the wrong length makes step2 return the
BadChallengeLength error, but a right-length challenge containing an index
outside the state makes step2 abort with an out-of-bounds indexing panic
rather than return an error value. -/
theorem step2_challenge_validation_bug :
    step2 sha3_zero
        { witness := ⟨[]⟩, inst := ⟨[], 0⟩, mseed := [], iv := [], param := ⟨0, 0, 2, 0, 1⟩ }
        { step1_state := [default], h := [] } [0, 1]
      = .err .BadChallengeLength ∧
    step2 sha3_zero
        { witness := ⟨[]⟩, inst := ⟨[], 0⟩, mseed := [], iv := [], param := ⟨0, 0, 2, 0, 1⟩ }
        { step1_state := [default], h := [] } [5]
      = .oob := by
  constructor
  · decide
  · decide

/-- C3: the byte streams absorbed by the two Fiat-Shamir hashers begin with
the same 8-byte prefix, because the source assigns both constants the bytes
of fs1 followed by five dashes; the spec requires distinct fs1/fs2
prefixes. -/
theorem fs_prefix_collision :
    PREFIX_FS_H1 = PREFIX_FS_H2 ∧
    (fs_hash1_input (List.replicate 32 0)).take 8
      = (fs_hash2_input (List.replicate 32 0) []).take 8 := by
  constructor
  · decide
  · decide

/-- C5: the sanity check inspects only lengths, the abort parameter and the
wrapped inner product, so a witness containing the byte 2 (outside the set
of 0 and 1) passes the check and a Prover is constructed storing it. -/
theorem sanity_check_accepts_nonbinary_witness :
    sanity_check ⟨[2]⟩ ⟨[3], 6⟩ ⟨1, 1, 1, 0, 1⟩ = .ok () ∧
    from_witness_instance sha3_zero ⟨[2]⟩ ⟨[3], 6⟩ (List.replicate 16 0) ⟨1, 1, 1, 0, 1⟩
      = .ok (from_witness_instance_unchecked sha3_zero ⟨[2]⟩ ⟨[3], 6⟩ (List.replicate 16 0)
          ⟨1, 1, 1, 0, 1⟩) ∧
    (from_witness_instance_unchecked sha3_zero ⟨[2]⟩ ⟨[3], 6⟩ (List.replicate 16 0)
        ⟨1, 1, 1, 0, 1⟩).witness.w = [2] ∧
    ¬ ((2 : Nat) = 0 ∨ (2 : Nat) = 1) := by
  refine ⟨by decide, by decide, by decide, by decide⟩

end Ssith
